import Mathlib

/-!
Verification of the quantitative-finance demo components of this repository
(`src/components/HestonModel.jsx`: Heston stochastic-volatility simulator,
Merton jump-diffusion simulator with histogram and Black-Scholes comparison,
and the Kelly-criterion calculator component).

The JavaScript is embedded shallowly: numeric state is modelled over a
linear ordered field `K` (instantiated at `ℝ` or, for concrete evaluation,
at `ℚ`), the transcendental library functions `Math.sqrt`, `Math.exp`,
`Math.log`, `math.erf` are passed in as explicit function parameters
(instantiated at `Real.sqrt`, `Real.exp`, ... in the theorems), and each
call to the random sources (`Math.random`, the Box-Muller normals) is an
arbitrary realization supplied as a stream parameter, so that theorems
quantify over "every realization of the random draws".
-/

set_option autoImplicit false

variable {K : Type} [LinearOrderedField K]

/-- Parameter record of the Heston component (state initialised at
`HestonModel.jsx` lines 6-16): initial price `S0`, initial variance `V0`,
rate `r`, mean-reversion speed `kappa`, long-run variance `theta`,
vol-of-vol `sigma`, correlation `rho`, horizon `T` and step count `steps`. -/
structure HestonParams (K : Type) where
  S0 : K
  V0 : K
  r : K
  kappa : K
  theta : K
  sigma : K
  rho : K
  T : K
  steps : ℕ

/-- Validity of a Heston parameter set: `S0>0, V0>0, kappa>0, theta>0,
sigma>0, rho ∈ (-1,1), T>0, steps ≥ 1` (the rate `r` is unconstrained). -/
def HestonParams.Valid (p : HestonParams K) : Prop :=
  0 < p.S0 ∧ 0 < p.V0 ∧ 0 < p.kappa ∧ 0 < p.theta ∧ 0 < p.sigma ∧
    -1 < p.rho ∧ p.rho < 1 ∧ 0 < p.T ∧ 1 ≤ p.steps

/-- The time increment `dt = T / steps` of `simulateHestonPath`. -/
def hestonDt (p : HestonParams K) : K := p.T / (p.steps : K)

/-- One iteration of the Euler loop of `simulateHestonPath`
(`HestonModel.jsx` lines 52-67): given the current price `S`, current
variance `V` and the correlated shocks `dW1, dW2` of this step, it forms
`sqrtV = max(sqrt |V|) 0.001`, the increments
`dS = r*S*dt + sqrtV*S*dW1*sqrt dt` and
`dV = kappa*(theta-V)*dt + sigma*sqrtV*dW2*sqrt dt`, and returns the new
pair `(S + dS, max (V + dV) 0.001)`. -/
def hestonStep (sqrt : K → K) (p : HestonParams K) (S V dW1 dW2 : K) : K × K :=
  let dt := hestonDt p
  let sqrtDt := sqrt dt
  let sqrtV := max (sqrt |V|) (1 / 1000)
  let dS := p.r * S * dt + sqrtV * S * dW1 * sqrtDt
  let dV := p.kappa * (p.theta - V) * dt + p.sigma * sqrtV * dW2 * sqrtDt
  (S + dS, max (V + dV) (1 / 1000))

/-- The `(S, V)` state after `n` iterations of the loop of
`simulateHestonPath`, starting from `(S0, V0)`; `shocks i` is the pair of
correlated normal draws `(dW1, dW2)` consumed at iteration `i`. -/
def hestonState (sqrt : K → K) (shocks : ℕ → K × K) (p : HestonParams K) : ℕ → K × K
  | 0 => (p.S0, p.V0)
  | n + 1 =>
    let SV := hestonState sqrt shocks p n
    hestonStep sqrt p SV.1 SV.2 (shocks n).1 (shocks n).2

/-- The pair `(pricePath, volPath)` returned by `simulateHestonPath`
(`HestonModel.jsx` lines 42-71): the lists of the `steps + 1` successive
price and variance values, starting with `S0` and `V0`. -/
def simulateHestonPath (sqrt : K → K) (shocks : ℕ → K × K) (p : HestonParams K) :
    List K × List K :=
  ((List.range (p.steps + 1)).map fun i => (hestonState sqrt shocks p i).1,
   (List.range (p.steps + 1)).map fun i => (hestonState sqrt shocks p i).2)

/-- Parameter record of the Merton jump-diffusion component
(`HestonModel.jsx` lines 530-542): initial price `S0`, rate `r`, diffusion
volatility `sigma`, jump intensity `lambda`, mean jump size `muJ`, jump
volatility `sigmaJ`, horizon `T` and per-path step count `numSteps` (the
strike `K` and option type feed only the option-pricing display). -/
structure MertonParams (K : Type) where
  S0 : K
  r : K
  sigma : K
  lambda : K
  muJ : K
  sigmaJ : K
  T : K
  numSteps : ℕ

/-- The time increment `dt = T / numSteps` of `simulateJumpDiffusionPath`. -/
def mertonDt (p : MertonParams K) : K := p.T / (p.numSteps : K)

/-- The do-while loop body of `randomPoisson` (`HestonModel.jsx` lines
565-568): starting from `k` iterations done and running product `pAcc`, each
iteration multiplies in the next uniform draw `us k` and continues while the
product exceeds `L`; on exit it returns the number of completed iterations
minus one.  The JavaScript loop is unbounded, so the embedding takes a fuel
bound and returns `none` if the loop has not exited within `fuel`
iterations. -/
def randomPoissonLoop (L : K) (us : ℕ → K) : ℕ → ℕ → K → Option ℕ
  | 0, _, _ => none
  | fuel + 1, k, pAcc =>
    let p1 := pAcc * us k
    if L < p1 then randomPoissonLoop L us fuel (k + 1) p1 else some k

/-- The `randomPoisson` sampler (`HestonModel.jsx` lines 560-571) with
threshold `L = exp (-lam)`, consuming the uniform draws `us 0, us 1, ...`. -/
def randomPoisson (fuel : ℕ) (exp : K → K) (lam : K) (us : ℕ → K) : Option ℕ :=
  randomPoissonLoop (exp (-lam)) us fuel 0 1

/-- The risk-neutral drift term of `simulateJumpDiffusionPath`
(`HestonModel.jsx` line 603):
`(r - lambda*(exp(muJ + 0.5*sigmaJ^2) - 1) - 0.5*sigma^2) * dt`. -/
def mertonDrift (exp : K → K) (p : MertonParams K) : K :=
  (p.r - p.lambda * (exp (p.muJ + (1 / 2) * p.sigmaJ * p.sigmaJ) - 1) -
    (1 / 2) * p.sigma * p.sigma) * mertonDt p

/-- The Poisson jump count drawn at loop iteration `i` of
`simulateJumpDiffusionPath` (`HestonModel.jsx` line 592):
`randomPoisson (lambda * dt)` fed with that iteration's uniform stream. -/
def numJumpsAt (fuel : ℕ) (exp : K → K) (p : MertonParams K)
    (us : ℕ → ℕ → K) (i : ℕ) : Option ℕ :=
  randomPoisson fuel exp (p.lambda * mertonDt p) (us i)

/-- The accumulated jump size of one step (`HestonModel.jsx` lines 595-600):
the sum of `muJ + sigmaJ * jN j` over the `n` jumps of the step, where
`jN j` is the `j`-th jump-size normal draw of the step. -/
def totalJumpSizeOf (p : MertonParams K) (jN : ℕ → K) (n : ℕ) : K :=
  ∑ j ∈ Finset.range n, (p.muJ + p.sigmaJ * jN j)

/-- The Merton price after `n` loop iterations of
`simulateJumpDiffusionPath` (`HestonModel.jsx` lines 584-604): starting at
`S0`, each step multiplies by `exp (drift + diffusion + totalJumpSize)`
where `diffusion = sigma * (dW * sqrt dt)` with `dW` the step's normal draw
scaled by `sqrt dt` as in line 588.  `none` propagates fuel exhaustion of
the embedded `randomPoisson` loop. -/
def mertonPrice (fuel : ℕ) (exp sqrt : K → K) (p : MertonParams K)
    (dWs : ℕ → K) (us : ℕ → ℕ → K) (jNs : ℕ → ℕ → K) : ℕ → Option K
  | 0 => some p.S0
  | n + 1 =>
    (mertonPrice fuel exp sqrt p dWs us jNs n).bind fun S =>
      (numJumpsAt fuel exp p us n).map fun nJ =>
        let diffusion := p.sigma * (dWs n * sqrt (mertonDt p))
        S * exp (mertonDrift exp p + diffusion + totalJumpSizeOf p (jNs n) nJ)

/-- One recorded point of a Merton path (`HestonModel.jsx` lines 606-612):
the time, the price, the number of jumps of the step (`0` for the initial
point; the recorded `jump` flag is `numJumps > 0`) and the accumulated jump
size of the step. -/
structure MStep (K : Type) where
  time : K
  price : K
  numJumps : ℕ
  jumpSize : K
  deriving DecidableEq

/-- The path entry pushed at loop iteration `i` of
`simulateJumpDiffusionPath`: for `i = 0` the initial point
`{time: 0, price: S0, jump: false, jumpSize: 0}` (line 582), and for a
step `i = n+1` the point with `time = i*dt`, the updated price, and the
step's jump count and total jump size (lines 606-612). -/
def mertonEntry (fuel : ℕ) (exp sqrt : K → K) (p : MertonParams K)
    (dWs : ℕ → K) (us : ℕ → ℕ → K) (jNs : ℕ → ℕ → K) : ℕ → Option (MStep K)
  | 0 => some ⟨0, p.S0, 0, 0⟩
  | n + 1 =>
    (mertonPrice fuel exp sqrt p dWs us jNs (n + 1)).bind fun S =>
      (numJumpsAt fuel exp p us n).map fun nJ =>
        ⟨((n + 1 : ℕ) : K) * mertonDt p, S, nJ, totalJumpSizeOf p (jNs n) nJ⟩

/-- The path list built by the first `n` iterations of the loop of
`simulateJumpDiffusionPath`: the initial point followed by one entry per
completed step, in order (the JavaScript pushes each entry at the end). -/
def mertonPathUpTo (fuel : ℕ) (exp sqrt : K → K) (p : MertonParams K)
    (dWs : ℕ → K) (us : ℕ → ℕ → K) (jNs : ℕ → ℕ → K) : ℕ → Option (List (MStep K))
  | 0 => some [⟨0, p.S0, 0, 0⟩]
  | n + 1 =>
    (mertonPathUpTo fuel exp sqrt p dWs us jNs n).bind fun l =>
      (mertonEntry fuel exp sqrt p dWs us jNs (n + 1)).map fun e => l ++ [e]

/-- The `{path, jumps}` result of `simulateJumpDiffusionPath`
(`HestonModel.jsx` lines 574-625): the full path of `numSteps + 1` points,
and the jump list, which records exactly the steps whose jump count is
positive (lines 614-621 push to `jumps` precisely when `numJumps > 0`,
with the same time, price and jump-size data as the path entry). -/
def simulateJumpDiffusionPath (fuel : ℕ) (exp sqrt : K → K) (p : MertonParams K)
    (dWs : ℕ → K) (us : ℕ → ℕ → K) (jNs : ℕ → ℕ → K) :
    Option (List (MStep K) × List (MStep K)) :=
  (mertonPathUpTo fuel exp sqrt p dWs us jNs p.numSteps).map fun pth =>
    (pth, pth.filter fun e => decide (0 < e.numJumps))

/-- JavaScript `Math.min(...xs)` on a nonempty spread argument list. -/
def listMin : List K → K
  | [] => 0
  | x :: xs => xs.foldl min x

/-- JavaScript `Math.max(...xs)` on a nonempty spread argument list. -/
def listMax : List K → K
  | [] => 0
  | x :: xs => xs.foldl max x

/-- One histogram bin of the Merton terminal-price distribution
(`HestonModel.jsx` lines 665-669): the bin's left edge `price`, its
`count`, and `frequency = count / numPaths`. -/
structure DistBin (K : Type) where
  price : K
  count : ℕ
  frequency : K

/-- The terminal-price histogram built by `runSimulation`
(`HestonModel.jsx` lines 655-670): 20 equal-width bins spanning
`[min, max]` of the batch, where bin `i` counts the prices `p` with
`binStart ≤ p < binStart + binSize`, `binStart = min + i * binSize` and
`binSize = (max - min) / 20`. -/
def distribution (prices : List K) (numPaths : ℕ) : List (DistBin K) :=
  let minPrice := listMin prices
  let maxPrice := listMax prices
  let binSize := (maxPrice - minPrice) / 20
  (List.range 20).map fun (i : ℕ) =>
    let binStart := minPrice + (i : K) * binSize
    let binEnd := binStart + binSize
    let count := (prices.filter fun x => decide (binStart ≤ x ∧ x < binEnd)).length
    ⟨binStart, count, (count : K) / (numPaths : K)⟩

/-- The total of the 20 bin counts of `distribution`. -/
def distributionCountsSum (prices : List K) (numPaths : ℕ) : ℕ :=
  ((distribution prices numPaths).map fun b => b.count).sum

/-- The `calculateBlackScholes` closed form of the Merton component
(`HestonModel.jsx` lines 712-724), with the library calls `Math.exp`,
`Math.log`, `Math.sqrt`, `math.erf` passed in as functions:
`d1 = (log(S0/Ks) + (r + 0.5*sigma^2)*T) / (sigma*sqrt T)`,
`d2 = d1 - sigma*sqrt T`, `normalCDF x = 0.5*(1 + erf (x / sqrt 2))`, and
the call price `S0*N(d1) - Ks*exp(-r*T)*N(d2)` or put price
`Ks*exp(-r*T)*N(-d2) - S0*N(-d1)`. -/
def calculateBlackScholes (exp log sqrt erf : K → K)
    (S0 Ks T r sigma : K) (isCall : Bool) : K :=
  let d1 := (log (S0 / Ks) + (r + (1 / 2) * sigma * sigma) * T) / (sigma * sqrt T)
  let d2 := d1 - sigma * sqrt T
  let normalCDF : K → K := fun x => (1 / 2) * (1 + erf (x / sqrt 2))
  if isCall then
    S0 * normalCDF d1 - Ks * exp (-r * T) * normalCDF d2
  else
    Ks * exp (-r * T) * normalCDF (-d2) - S0 * normalCDF (-d1)

/-- The spec's statement of the Black-Scholes contract, written from its
words: `d1 = (ln(S0/K) + (r + 0.5σ²)T)/(σ√T)`, `d2 = d1 − σ√T`,
`Φ(x) = 0.5(1 + erf(x/√2))`, call `S0·Φ(d1) − K·e^{-rT}·Φ(d2)` and put
`K·e^{-rT}·Φ(−d2) − S0·Φ(−d1)`.  Used only to compare against
`calculateBlackScholes`. -/
def blackScholesSpec (exp log sqrt erf : K → K)
    (S0 Ks T r sigma : K) (isCall : Bool) : K :=
  let d1 := (log (S0 / Ks) + (r + (1 / 2) * sigma ^ 2) * T) / (sigma * sqrt T)
  let d2 := d1 - sigma * sqrt T
  let Phi : K → K := fun x => (1 / 2) * (1 + erf (x / sqrt 2))
  if isCall then
    S0 * Phi d1 - Ks * exp (-(r * T)) * Phi d2
  else
    Ks * exp (-(r * T)) * Phi (-d2) - S0 * Phi (-d1)

/-- The Black-Scholes comparison price computed inside the Heston
component's `runSimulation` (`HestonModel.jsx` lines 111-119):
`d1 = (log(S0/S0) + (r + 0.5*V0)*T) / sqrt(V0*T)`,
`d2 = d1 - sqrt(V0*T)`, and the price
`S0*N(d1) - S0*exp(-r*T)*N(d2)` with `N x = 0.5*(1 + erf (x / sqrt 2))`. -/
def hestonBsComparisonPrice (exp log sqrt erf : K → K) (p : HestonParams K) : K :=
  let d1 := (log (p.S0 / p.S0) + (p.r + (1 / 2) * p.V0) * p.T) / sqrt (p.V0 * p.T)
  let d2 := d1 - sqrt (p.V0 * p.T)
  let normalCDF : K → K := fun x => (1 / 2) * (1 + erf (x / sqrt 2))
  p.S0 * normalCDF d1 - p.S0 * exp (-p.r * p.T) * normalCDF d2

/-- The `calculateKellyFraction` function of the Kelly component
(src/unnamed/part_000 lines 14-22): with win probability `p`, win ratio
`b` and loss ratio `a`, the raw fraction `(p*b - (1-p)*a) / (a*b)` clamped
by `Math.max(0, Math.min(1, kelly))`. -/
def calculateKellyFraction (p b a : K) : K :=
  let q := 1 - p
  let kelly := (p * b - q * a) / (a * b)
  max 0 (min 1 kelly)

/-- The spec's statement of the Kelly-fraction contract, written from its
words: `f* = (p·b − (1−p)·a) / (a·b)`, clamped to the interval `[0, 1]`.
Used only to compare against `calculateKellyFraction`. -/
def kellyFractionSpec (p b a : K) : K :=
  min 1 (max 0 ((p * b - (1 - p) * a) / (a * b)))

/-- The four betting fractions compared by `compareStrategies`
(src/unnamed/part_000 lines 58-63): full Kelly, half Kelly, double Kelly
and the fixed 5 percent, in that order. -/
def strategyFractions (p b a : K) : List K :=
  let kelly := calculateKellyFraction p b a
  [kelly, kelly / 2, kelly * 2, 1 / 20]

/-- One bet of the simulation loops of `simulateBetting` and
`compareStrategies` (src/unnamed/part_000 lines 38-49 and 78-89): the bet
size is `capital * fraction`; a win adds `betSize * b`, a loss subtracts
`betSize * a`, and the result is floored at `0`. -/
def betStep (b a fraction : K) (win : Bool) (capital : K) : K :=
  let betSize := capital * fraction
  max 0 (if win then capital + betSize * b else capital - betSize * a)

/-- JavaScript `Math.log` as it behaves on the values fed to it by
`expectedGrowthRate`: on a positive argument it yields the finite float
`log x` (the exact logarithm, `log := Real.log` in the theorems); on an
argument `≤ 0` it yields a non-finite float (`-Infinity` at `0`, `NaN`
below), modelled as `none`. -/
def jsLog (log : K → K) (x : K) : Option K :=
  if 0 < x then some (log x) else none

/-- The `expectedGrowthRate` function of the Kelly component
(src/unnamed/part_000 lines 123-130): `p*log(1 + f*b) + (1-p)*log(1 - f*a)`
with no guard on the log arguments.  A `none` result records that the
JavaScript computation produces a non-finite float (`NaN` or `-Infinity`
escaping from `Math.log` and propagating through the products and sum),
not that the code raises a distinct error. -/
def expectedGrowthRate (log : K → K) (p b a f : K) : Option K :=
  (jsLog log (1 + f * b)).bind fun l1 =>
    (jsLog log (1 - f * a)).map fun l2 =>
      p * l1 + (1 - p) * l2

/-- The component's default Heston parameter set (`HestonModel.jsx` lines
6-16): `S0=100, V0=0.04, r=0.05, kappa=2, theta=0.04, sigma=0.3, rho=-0.7,
T=1, steps=252`. -/
def hestonDefaultParams (K : Type) [LinearOrderedField K] : HestonParams K :=
  ⟨100, 1 / 25, 1 / 20, 2, 1 / 25, 3 / 10, -7 / 10, 1, 252⟩

/-- A valid Heston parameter set whose initial variance `V0 = 0.0005` lies
below the `0.001` floor (all other entries as in the component's
defaults, with a single step). -/
def hestonLowV0Params (K : Type) [LinearOrderedField K] : HestonParams K :=
  ⟨100, 1 / 2000, 1 / 20, 2, 1 / 25, 3 / 10, -7 / 10, 1, 1⟩

/-- The component's default Heston parameter values with a single step
over `T = 1`. -/
def hestonOneStepParams (K : Type) [LinearOrderedField K] : HestonParams K :=
  ⟨100, 1 / 25, 1 / 20, 2, 1 / 25, 3 / 10, -7 / 10, 1, 1⟩

/-- Indexing the price list returned by `simulateHestonPath` recovers the
iterated loop state. -/
theorem simulateHestonPath_price_getElem (sqrt : K → K) (shocks : ℕ → K × K)
    (p : HestonParams K) {i : ℕ} (h : i < p.steps + 1) :
    ((simulateHestonPath sqrt shocks p).1)[i]?
      = some ((hestonState sqrt shocks p i).1) := by
  simp [simulateHestonPath, List.getElem?_map, List.getElem?_range, h]

/-- Indexing the variance list returned by `simulateHestonPath` recovers
the iterated loop state. -/
theorem simulateHestonPath_vol_getElem (sqrt : K → K) (shocks : ℕ → K × K)
    (p : HestonParams K) {i : ℕ} (h : i < p.steps + 1) :
    ((simulateHestonPath sqrt shocks p).2)[i]?
      = some ((hestonState sqrt shocks p i).2) := by
  simp [simulateHestonPath, List.getElem?_map, List.getElem?_range, h]

/-- After any completed loop iteration, the recorded variance is at least
the `0.001` floor, whatever the shocks and the behaviour of `sqrt`. -/
theorem hestonState_var_floor (sqrt : K → K) (shocks : ℕ → K × K)
    (p : HestonParams K) (n : ℕ) :
    1 / 1000 ≤ (hestonState sqrt shocks p (n + 1)).2 := by
  simp only [hestonState, hestonStep]
  exact le_max_right _ _

/-- C1, counterexample: for the valid parameter set with `V0 = 0.0005`,
the initial entry of `volPath` is `0.0005`, which is below `0.001`, so
not every element of `volPath` is `≥ 0.001`. -/
theorem hestonVolPathFloor_counterexample :
    (hestonLowV0Params ℝ).Valid ∧
    (1 / 2000 : ℝ) ∈ (simulateHestonPath Real.sqrt (fun _ => (0, 0)) (hestonLowV0Params ℝ)).2 ∧
    ¬ ((1 / 1000 : ℝ) ≤ 1 / 2000) := by
  refine ⟨?_, ?_, by norm_num⟩
  · simp only [HestonParams.Valid, hestonLowV0Params]
    norm_num
  · simp only [simulateHestonPath, List.mem_map]
    exact ⟨0, by simp [hestonLowV0Params], by simp [hestonState, hestonLowV0Params]⟩

/-- C1, amended: for every parameter set and every realization of the
shocks, every element of `volPath` after the initial one is `≥ 0.001`,
while the initial entry equals `V0` (which is only known to be positive
for valid parameters). -/
theorem hestonVolPathFloor_after_step0 (sqrt : K → K) (shocks : ℕ → K × K)
    (p : HestonParams K) :
    (∀ v ∈ ((simulateHestonPath sqrt shocks p).2).tail, 1 / 1000 ≤ v) ∧
    ((simulateHestonPath sqrt shocks p).2).head? = some p.V0 := by
  constructor
  · intro v hv
    simp only [simulateHestonPath, List.range_succ_eq_map, List.map_cons,
      List.map_map, List.tail_cons, List.mem_map, List.mem_range] at hv
    obtain ⟨j, -, hj⟩ := hv
    rw [← hj]
    exact hestonState_var_floor sqrt shocks p j
  · simp [simulateHestonPath, List.range_succ_eq_map, hestonState]

/-- Witness for the amended C1 theorem: applied at the component's default
parameter values over `ℚ` (one step, zero shocks), it bounds the recorded
variance after the first step. -/
theorem hestonVolPathFloor_after_step0_witness :
    1 / 1000 ≤ (hestonState (fun x => x) (fun _ => (0, 0)) (hestonOneStepParams ℚ) 1).2 := by
  have hmem : (hestonState (fun x => x) (fun _ => (0, 0)) (hestonOneStepParams ℚ) 1).2
      ∈ ((simulateHestonPath (fun x => x) (fun _ => (0, 0)) (hestonOneStepParams ℚ)).2).tail := by
    simp [simulateHestonPath, hestonOneStepParams, List.range_succ]
  exact (hestonVolPathFloor_after_step0 (fun x => x) (fun _ => (0, 0))
    (hestonOneStepParams ℚ)).1 _ hmem

/-- With the default parameters and all shocks zero, the state after `i`
steps is the drifted price `100 * (1 + 1/5040)^i` paired with the constant
variance `1/25`: the Euler price update still applies the deterministic
drift `r*S*dt = S/5040` each step. -/
theorem hestonZeroShock_state (i : ℕ) :
    hestonState Real.sqrt (fun _ => (0, 0)) (hestonDefaultParams ℝ) i
      = (100 * (1 + 1 / 5040) ^ i, 1 / 25) := by
  induction i with
  | zero => simp [hestonState, hestonDefaultParams]
  | succ n ih =>
    rw [hestonState, ih]
    simp only [hestonStep, hestonDt, hestonDefaultParams, Prod.mk.injEq,
      mul_zero, zero_mul, add_zero, Nat.cast_ofNat]
    constructor
    · rw [pow_succ]; ring
    · rw [show (1 / 25 - 1 / 25 : ℝ) = 0 by norm_num]
      rw [max_eq_left (by norm_num)]
      ring

/-- C2, counterexample: with the default parameters and both shocks fixed
to zero at every step, the simulated price after the first step is
`100 + 5/252`, not `100`: the Euler scheme's deterministic drift
`r*S*dt` moves the price even with zero shocks. -/
theorem hestonZeroShockPrice_counterexample :
    ((simulateHestonPath Real.sqrt (fun _ => (0, 0)) (hestonDefaultParams ℝ)).1)[1]?
      = some (100 + 5 / 252 : ℝ) ∧ (100 + 5 / 252 : ℝ) ≠ 100 := by
  refine ⟨?_, by norm_num⟩
  rw [simulateHestonPath_price_getElem Real.sqrt (fun _ => (0, 0)) (hestonDefaultParams ℝ)
    (show 1 < (hestonDefaultParams ℝ).steps + 1 by simp [hestonDefaultParams])]
  rw [hestonZeroShock_state 1]
  norm_num

/-- C2, amended: with the default parameters (`S0=100, V0=0.04, r=0.05,
kappa=2, theta=0.04, sigma=0.3, rho=-0.7, T=1, steps=252`) and the random
source fixed so both shocks are `0` at every step, the variance path is
exactly `0.04` at every step, and the price path at step `i` is exactly
`100 * (1 + r*dt)^i = 100 * (1 + 1/5040)^i`, which drifts upward rather
than staying at `100`. -/
theorem hestonZeroShockPath_amended (i : ℕ) (h : i ≤ 252) :
    ((simulateHestonPath Real.sqrt (fun _ => (0, 0)) (hestonDefaultParams ℝ)).1)[i]?
      = some (100 * (1 + 1 / 5040) ^ i) ∧
    ((simulateHestonPath Real.sqrt (fun _ => (0, 0)) (hestonDefaultParams ℝ)).2)[i]?
      = some (1 / 25) := by
  have hi : i < (hestonDefaultParams ℝ).steps + 1 := by
    simp only [hestonDefaultParams]; omega
  rw [simulateHestonPath_price_getElem Real.sqrt (fun _ => (0, 0)) (hestonDefaultParams ℝ) hi,
    simulateHestonPath_vol_getElem Real.sqrt (fun _ => (0, 0)) (hestonDefaultParams ℝ) hi,
    hestonZeroShock_state i]
  exact ⟨rfl, rfl⟩

/-- Witness for the amended C2 theorem, applied at step `0`. -/
theorem hestonZeroShockPath_amended_witness :
    ((simulateHestonPath Real.sqrt (fun _ => (0, 0)) (hestonDefaultParams ℝ)).1)[0]?
      = some (100 * (1 + 1 / 5040) ^ 0) ∧
    ((simulateHestonPath Real.sqrt (fun _ => (0, 0)) (hestonDefaultParams ℝ)).2)[0]?
      = some (1 / 25) :=
  hestonZeroShockPath_amended 0 (by norm_num)

/-- C9, counterexample (Heston part): with the valid single-step default
parameters and the shock realization `dW1 = -100`, the recorded price
after the first step is `-1895`, which is not strictly positive: the
Heston price update is not floored. -/
theorem hestonPricePositive_counterexample :
    (hestonOneStepParams ℝ).Valid ∧
    ((simulateHestonPath Real.sqrt (fun _ => ((-100 : ℝ), 0)) (hestonOneStepParams ℝ)).1)[1]?
      = some ((-1895 : ℝ)) ∧
    ¬ ((0 : ℝ) < -1895) := by
  refine ⟨?_, ?_, by norm_num⟩
  · simp only [HestonParams.Valid, hestonOneStepParams]
    norm_num
  · have hsq : Real.sqrt (1 / 25) = 1 / 5 := by
      rw [show (1 / 25 : ℝ) = (1 / 5) ^ 2 by norm_num, Real.sqrt_sq (by norm_num)]
    rw [simulateHestonPath_price_getElem Real.sqrt (fun _ => ((-100 : ℝ), 0))
      (hestonOneStepParams ℝ)
      (show 1 < (hestonOneStepParams ℝ).steps + 1 by simp [hestonOneStepParams])]
    rw [show (hestonState Real.sqrt (fun _ => ((-100 : ℝ), 0)) (hestonOneStepParams ℝ) 1)
        = hestonStep Real.sqrt (hestonOneStepParams ℝ) 100 (1 / 25) (-100) 0 from rfl]
    simp only [hestonStep, hestonDt, hestonOneStepParams, Nat.cast_one]
    rw [show |(1 / 25 : ℝ)| = 1 / 25 by rw [abs_of_pos]; norm_num]
    rw [hsq, max_eq_left (by norm_num)]
    norm_num [Real.sqrt_one]

/-- C7: the Kelly fraction computed by the component equals the spec's
clamped closed form `min 1 (max 0 ((p*b - (1-p)*a)/(a*b)))` for all
inputs, and evaluates to exactly `0.10` at `p=0.55, b=1, a=1` and to `0`
at `p=0.5, b=1, a=1`. -/
theorem calculateKellyFraction_matches_spec :
    (∀ p b a : K, calculateKellyFraction p b a = kellyFractionSpec p b a) ∧
    calculateKellyFraction (11 / 20 : ℚ) 1 1 = 1 / 10 ∧
    calculateKellyFraction (1 / 2 : ℚ) 1 1 = 0 := by
  refine ⟨fun p b a => ?_, ?_, ?_⟩
  · simp only [calculateKellyFraction, kellyFractionSpec]
    rw [max_min_distrib_left, max_eq_right (zero_le_one)]
  · norm_num [calculateKellyFraction, max_def, min_def]
  · norm_num [calculateKellyFraction, max_def, min_def]

/-- C4, counterexample: at the valid slider values `p=0.9, b=1, a=1`, the
clamped Kelly fraction is `4/5`, so the Double Kelly policy bets with
fraction `8/5`, which exceeds `1`. -/
theorem kellyStrategyFractions_counterexample :
    (8 / 5 : ℚ) ∈ strategyFractions (9 / 10 : ℚ) 1 1 ∧ ¬ ((8 / 5 : ℚ) ≤ 1) := by
  have h : strategyFractions (9 / 10 : ℚ) 1 1 = [4 / 5, 2 / 5, 8 / 5, 1 / 20] := by
    norm_num [strategyFractions, calculateKellyFraction, max_def, min_def]
  refine ⟨?_, by norm_num⟩
  rw [h]
  simp

/-- C4, amended: for every input, the clamped Kelly fraction and its half,
and the fixed 5 percent, lie in `[0, 1]`; the Double Kelly fraction is
only guaranteed to lie in `[0, 2]` (it is `2 * kelly`, unclamped), and so
every fraction used by `compareStrategies` lies in `[0, 2]`. -/
theorem kellyStrategyFractions_amended (p b a : K) :
    (0 ≤ calculateKellyFraction p b a ∧ calculateKellyFraction p b a ≤ 1) ∧
    (0 ≤ calculateKellyFraction p b a / 2 ∧ calculateKellyFraction p b a / 2 ≤ 1) ∧
    (0 ≤ calculateKellyFraction p b a * 2 ∧ calculateKellyFraction p b a * 2 ≤ 2) ∧
    ((0 : K) ≤ 1 / 20 ∧ (1 / 20 : K) ≤ 1) ∧
    (∀ f ∈ strategyFractions p b a, 0 ≤ f ∧ f ≤ 2) := by
  have h0 : 0 ≤ calculateKellyFraction p b a := le_max_left _ _
  have h1 : calculateKellyFraction p b a ≤ 1 :=
    max_le zero_le_one (min_le_left _ _)
  refine ⟨⟨h0, h1⟩, ⟨by positivity, by linarith⟩, ⟨by positivity, by linarith⟩,
    ⟨by norm_num, by norm_num⟩, ?_⟩
  intro f hf
  simp only [strategyFractions, List.mem_cons, List.mem_singleton] at hf
  rcases hf with rfl | rfl | rfl | rfl | h
  · exact ⟨h0, by linarith⟩
  · exact ⟨by positivity, by linarith⟩
  · exact ⟨by positivity, by linarith⟩
  · exact ⟨by norm_num, by norm_num⟩
  · cases h

/-- Witness for the amended C4 theorem: its membership clause applied to
the fixed 5 percent fraction at `p=1/2, b=1, a=1` over `ℚ`. -/
theorem kellyStrategyFractions_amended_witness :
    0 ≤ (1 / 20 : ℚ) ∧ (1 / 20 : ℚ) ≤ 2 := by
  have hmem : (1 / 20 : ℚ) ∈ strategyFractions (1 / 2 : ℚ) 1 1 := by
    simp [strategyFractions]
  exact (kellyStrategyFractions_amended (1 / 2 : ℚ) 1 1).2.2.2.2 _ hmem

/-- C8: at the degenerate input `p=0.55, b=1, a=1, f=1` the code evaluates
`Math.log(1 - f*a) = Math.log 0` and its result is the non-finite float
`-Infinity` (modelled `none`) rather than a detected, distinctly signalled
invalid result; away from the degeneracy (`1 + f*b > 0` and `1 - f*a > 0`)
it returns the finite value `p*ln(1+f*b) + (1-p)*ln(1-f*a)`. -/
theorem expectedGrowthRate_degenerate :
    expectedGrowthRate Real.log (11 / 20 : ℝ) 1 1 1 = none ∧
    (∀ p b a f : ℝ, 0 < 1 + f * b → 0 < 1 - f * a →
      expectedGrowthRate Real.log p b a f
        = some (p * Real.log (1 + f * b) + (1 - p) * Real.log (1 - f * a))) := by
  constructor
  · norm_num [expectedGrowthRate, jsLog]
  · intro p b a f h1 h2
    simp [expectedGrowthRate, jsLog, h1, h2]

/-- Witness for the C8 theorem: its non-degenerate clause applied at
`p=1/2, b=1, a=1, f=1/2`. -/
theorem expectedGrowthRate_degenerate_witness :
    expectedGrowthRate Real.log (1 / 2 : ℝ) 1 1 (1 / 2)
      = some ((1 / 2 : ℝ) * Real.log (1 + (1 / 2) * 1)
          + (1 - 1 / 2) * Real.log (1 - (1 / 2) * 1)) :=
  expectedGrowthRate_degenerate.2 (1 / 2) 1 1 (1 / 2) (by norm_num) (by norm_num)

/-- C6: for positive `sigma, T, S0, K`, `calculateBlackScholes` returns
exactly the spec's closed-form call and put prices (for any behaviour of
the transcendental library functions). -/
theorem calculateBlackScholes_matches_spec (exp log sqrt erf : K → K)
    (S0 Ks T r sigma : K)
    (hsigma : 0 < sigma) (hT : 0 < T) (hS0 : 0 < S0) (hKs : 0 < Ks) :
    calculateBlackScholes exp log sqrt erf S0 Ks T r sigma true
      = blackScholesSpec exp log sqrt erf S0 Ks T r sigma true ∧
    calculateBlackScholes exp log sqrt erf S0 Ks T r sigma false
      = blackScholesSpec exp log sqrt erf S0 Ks T r sigma false := by
  have hd : r + (1 / 2) * sigma * sigma = r + (1 / 2) * sigma ^ 2 := by ring
  have he : (-r * T : K) = -(r * T) := by ring
  constructor <;> simp only [calculateBlackScholes, blackScholesSpec, hd, he]

/-- Witness for the C6 theorem: applied with the identity standing in for
the transcendental functions at `S0 = K = 100, T = 1, r = 0, sigma = 1`
over `ℚ`. -/
theorem calculateBlackScholes_matches_spec_witness :
    calculateBlackScholes (fun x : ℚ => x) (fun x => x) (fun x => x) (fun x => x)
        100 100 1 0 1 true
      = blackScholesSpec (fun x : ℚ => x) (fun x => x) (fun x => x) (fun x => x)
        100 100 1 0 1 true ∧
    calculateBlackScholes (fun x : ℚ => x) (fun x => x) (fun x => x) (fun x => x)
        100 100 1 0 1 false
      = blackScholesSpec (fun x : ℚ => x) (fun x => x) (fun x => x) (fun x => x)
        100 100 1 0 1 false :=
  calculateBlackScholes_matches_spec (fun x => x) (fun x => x) (fun x => x) (fun x => x)
    100 100 1 0 1 (by norm_num) (by norm_num) (by norm_num) (by norm_num)

/-- C10: the Heston component's Black-Scholes comparison price equals the
general `calculateBlackScholes` call price evaluated at the money (strike
fixed to `S0`) with constant volatility `sqrt V0`, for every parameter
set with `V0, T ≥ 0`; moreover its `log(S0/S0)` term vanishes, so no
independent strike enters. -/
theorem hestonBsComparison_at_the_money (erf : ℝ → ℝ) (p : HestonParams ℝ)
    (hV : 0 ≤ p.V0) (hT : 0 ≤ p.T) :
    hestonBsComparisonPrice Real.exp Real.log Real.sqrt erf p
      = calculateBlackScholes Real.exp Real.log Real.sqrt erf
          p.S0 p.S0 p.T p.r (Real.sqrt p.V0) true ∧
    Real.log (p.S0 / p.S0) = 0 := by
  constructor
  · simp only [calculateBlackScholes, hestonBsComparisonPrice, if_true]
    rw [mul_assoc (1 / 2 : ℝ) (Real.sqrt p.V0) (Real.sqrt p.V0),
      Real.mul_self_sqrt hV, ← Real.sqrt_mul hV]
  · rcases eq_or_ne p.S0 0 with h | h
    · rw [h, zero_div, Real.log_zero]
    · rw [div_self h, Real.log_one]

/-- Witness for the C10 theorem: applied at the component's default
parameter set with the identity standing in for `erf`. -/
theorem hestonBsComparison_at_the_money_witness :
    hestonBsComparisonPrice Real.exp Real.log Real.sqrt (fun x => x) (hestonDefaultParams ℝ)
      = calculateBlackScholes Real.exp Real.log Real.sqrt (fun x => x)
          (hestonDefaultParams ℝ).S0 (hestonDefaultParams ℝ).S0 (hestonDefaultParams ℝ).T
          (hestonDefaultParams ℝ).r (Real.sqrt (hestonDefaultParams ℝ).V0) true ∧
    Real.log ((hestonDefaultParams ℝ).S0 / (hestonDefaultParams ℝ).S0) = 0 :=
  hestonBsComparison_at_the_money (fun x => x) (hestonDefaultParams ℝ)
    (by norm_num [hestonDefaultParams]) (by norm_num [hestonDefaultParams])

/-- The Merton parameter values used for concrete instantiation, with jump
intensity `lambda = 0` and one step. -/
def mertonLambdaZeroParams (K : Type) [LinearOrderedField K] : MertonParams K :=
  ⟨100, 1 / 20, 1 / 5, 0, -(1 / 10), 3 / 20, 1, 1⟩

/-- The Merton parameter values used for concrete instantiation, with jump
intensity `lambda = 0` and zero steps. -/
def mertonZeroStepParams (K : Type) [LinearOrderedField K] : MertonParams K :=
  ⟨100, 1 / 20, 1 / 5, 0, -(1 / 10), 3 / 20, 1, 0⟩

/-- With intensity `0` the Poisson threshold is `exp 0 = 1`, and since
`Math.random` draws are `< 1` the do-while loop exits on its first
iteration with `k - 1 = 0` jumps. -/
theorem randomPoisson_zero_intensity (fuel : ℕ) (hfuel : 1 ≤ fuel) (us : ℕ → ℝ)
    (hus : ∀ j, 0 ≤ us j ∧ us j < 1) :
    randomPoisson fuel Real.exp 0 us = some 0 := by
  obtain ⟨f, rfl⟩ : ∃ f, fuel = f + 1 := ⟨fuel - 1, by omega⟩
  simp only [randomPoisson, neg_zero, Real.exp_zero, randomPoissonLoop, one_mul]
  rw [if_neg (not_lt.mpr (le_of_lt (hus 0).2))]

/-- With `lambda = 0` every step draws `0` jumps. -/
theorem numJumpsAt_zero_intensity (fuel : ℕ) (p : MertonParams ℝ)
    (us : ℕ → ℕ → ℝ) (i : ℕ) (hl : p.lambda = 0) (hfuel : 1 ≤ fuel)
    (hus : ∀ i j, 0 ≤ us i j ∧ us i j < 1) :
    numJumpsAt fuel Real.exp p us i = some 0 := by
  rw [numJumpsAt, hl, zero_mul]
  exact randomPoisson_zero_intensity fuel hfuel (us i) (hus i)

/-- With `lambda = 0` the Poisson loops all terminate, so the price after
any number of steps is defined. -/
theorem mertonPrice_zero_intensity_isSome (fuel : ℕ) (p : MertonParams ℝ)
    (dWs : ℕ → ℝ) (us : ℕ → ℕ → ℝ) (jNs : ℕ → ℕ → ℝ)
    (hl : p.lambda = 0) (hfuel : 1 ≤ fuel)
    (hus : ∀ i j, 0 ≤ us i j ∧ us i j < 1) (n : ℕ) :
    ∃ S, mertonPrice fuel Real.exp Real.sqrt p dWs us jNs n = some S := by
  induction n with
  | zero => exact ⟨p.S0, rfl⟩
  | succ m ih =>
    obtain ⟨S, hS⟩ := ih
    rw [mertonPrice, hS, numJumpsAt_zero_intensity fuel p us m hl hfuel hus]
    simp only [Option.some_bind, Option.map_some']
    exact ⟨_, rfl⟩

/-- With `lambda = 0` and all diffusion draws zero, the price after `n`
steps is exactly `S0 * exp (n * (r - sigma^2/2) * dt)`. -/
theorem mertonPrice_zero_intensity_closed_form (fuel : ℕ) (p : MertonParams ℝ)
    (dWs : ℕ → ℝ) (us : ℕ → ℕ → ℝ) (jNs : ℕ → ℕ → ℝ)
    (hl : p.lambda = 0) (hfuel : 1 ≤ fuel)
    (hus : ∀ i j, 0 ≤ us i j ∧ us i j < 1) (hdW : ∀ i, dWs i = 0) (n : ℕ) :
    mertonPrice fuel Real.exp Real.sqrt p dWs us jNs n
      = some (p.S0 * Real.exp ((n : ℝ) *
          ((p.r - (1 / 2) * p.sigma * p.sigma) * mertonDt p))) := by
  induction n with
  | zero => simp [mertonPrice]
  | succ m ih =>
    rw [mertonPrice, ih, numJumpsAt_zero_intensity fuel p us m hl hfuel hus]
    simp only [Option.some_bind, Option.map_some', Option.some.injEq]
    rw [hdW m, mertonDrift, hl]
    simp only [zero_mul, sub_zero, mul_zero, add_zero,
      totalJumpSizeOf, Finset.range_zero, Finset.sum_empty]
    rw [mul_assoc, ← Real.exp_add]
    congr 2
    push_cast
    ring

/-- C5: with a valid Merton parameter set whose jump intensity is `0`,
(a) for every realization of the draws (uniforms in `[0,1)`) the returned
jump list is empty, and (b) if additionally every diffusion normal draw is
`0`, the terminal price is exactly `S0 * exp ((r - sigma^2/2) * T)`. -/
theorem mertonZeroIntensity (fuel : ℕ) (p : MertonParams ℝ)
    (dWs : ℕ → ℝ) (us : ℕ → ℕ → ℝ) (jNs : ℕ → ℕ → ℝ)
    (hl : p.lambda = 0) (hsteps : 1 ≤ p.numSteps) (hfuel : 1 ≤ fuel)
    (hus : ∀ i j, 0 ≤ us i j ∧ us i j < 1) :
    (∃ pth, simulateJumpDiffusionPath fuel Real.exp Real.sqrt p dWs us jNs
        = some (pth, [])) ∧
    ((∀ i, dWs i = 0) →
      mertonPrice fuel Real.exp Real.sqrt p dWs us jNs p.numSteps
        = some (p.S0 * Real.exp ((p.r - (1 / 2) * p.sigma ^ 2) * p.T))) := by
  constructor
  · have key : ∀ n, ∃ l, mertonPathUpTo fuel Real.exp Real.sqrt p dWs us jNs n = some l ∧
        ∀ e ∈ l, e.numJumps = 0 := by
      intro n
      induction n with
      | zero => exact ⟨_, rfl, by simp⟩
      | succ m ih =>
        obtain ⟨l, hl2, hall⟩ := ih
        obtain ⟨S, hS⟩ := mertonPrice_zero_intensity_isSome fuel p dWs us jNs hl hfuel hus (m + 1)
        refine ⟨l ++ [⟨((m + 1 : ℕ) : ℝ) * mertonDt p, S, 0,
          totalJumpSizeOf p (jNs m) 0⟩], ?_, ?_⟩
        · rw [mertonPathUpTo, hl2, mertonEntry, hS,
            numJumpsAt_zero_intensity fuel p us m hl hfuel hus]
          rfl
        · intro e he
          rcases List.mem_append.mp he with h | h
          · exact hall e h
          · rw [List.mem_singleton.mp h]
      
    obtain ⟨l, hpath, hall⟩ := key p.numSteps
    refine ⟨l, ?_⟩
    rw [simulateJumpDiffusionPath, hpath]
    simp only [Option.map_some', Option.some.injEq, Prod.mk.injEq, true_and]
    rw [List.filter_eq_nil_iff]
    intro e he
    simp [hall e he]
  · intro hdW
    rw [mertonPrice_zero_intensity_closed_form fuel p dWs us jNs hl hfuel hus hdW]
    have hn : (p.numSteps : ℝ) ≠ 0 := Nat.cast_ne_zero.mpr (by omega)
    rw [show ((p.numSteps : ℝ) * ((p.r - (1 / 2) * p.sigma * p.sigma) * mertonDt p))
        = (p.r - (1 / 2) * p.sigma ^ 2) * p.T from by rw [mertonDt]; field_simp; ring]

/-- Witness for the C5 theorem: applied at the concrete `lambda = 0`
parameter set with one step, fuel `1`, and all draws zero. -/
theorem mertonZeroIntensity_witness :
    (∃ pth, simulateJumpDiffusionPath 1 Real.exp Real.sqrt (mertonLambdaZeroParams ℝ)
        (fun _ => 0) (fun _ _ => 0) (fun _ _ => 0) = some (pth, [])) ∧
    ((∀ i : ℕ, (fun _ : ℕ => (0 : ℝ)) i = 0) →
      mertonPrice 1 Real.exp Real.sqrt (mertonLambdaZeroParams ℝ)
          (fun _ => 0) (fun _ _ => 0) (fun _ _ => 0) (mertonLambdaZeroParams ℝ).numSteps
        = some ((mertonLambdaZeroParams ℝ).S0 *
            Real.exp (((mertonLambdaZeroParams ℝ).r -
              (1 / 2) * (mertonLambdaZeroParams ℝ).sigma ^ 2) * (mertonLambdaZeroParams ℝ).T))) :=
  mertonZeroIntensity 1 (mertonLambdaZeroParams ℝ) (fun _ => 0) (fun _ _ => 0) (fun _ _ => 0)
    (by simp [mertonLambdaZeroParams]) (by simp [mertonLambdaZeroParams]) (le_refl 1)
    (fun _ _ => ⟨le_refl 0, by norm_num⟩)

/-- Any defined Merton price is strictly positive when `S0` is. -/
theorem mertonPrice_pos (fuel : ℕ) (p : MertonParams ℝ)
    (dWs : ℕ → ℝ) (us : ℕ → ℕ → ℝ) (jNs : ℕ → ℕ → ℝ) (hS0 : 0 < p.S0) :
    ∀ n S, mertonPrice fuel Real.exp Real.sqrt p dWs us jNs n = some S → 0 < S := by
  intro n
  induction n with
  | zero =>
    intro S hS
    rw [mertonPrice, Option.some.injEq] at hS
    exact hS ▸ hS0
  | succ m ih =>
    intro S hS
    rw [mertonPrice] at hS
    rcases hprev : mertonPrice fuel Real.exp Real.sqrt p dWs us jNs m with _ | Sm
    · rw [hprev] at hS; cases hS
    · rw [hprev, Option.some_bind] at hS
      rcases hj : numJumpsAt fuel Real.exp p us m with _ | nJ
      · rw [hj] at hS; cases hS
      · rw [hj, Option.map_some', Option.some.injEq] at hS
        rw [← hS]
        exact mul_pos (ih Sm hprev) (Real.exp_pos _)

/-- Every entry of a defined Merton path has a defined, positive price. -/
theorem mertonPathUpTo_price_pos (fuel : ℕ) (p : MertonParams ℝ)
    (dWs : ℕ → ℝ) (us : ℕ → ℕ → ℝ) (jNs : ℕ → ℕ → ℝ) (hS0 : 0 < p.S0) :
    ∀ n l, mertonPathUpTo fuel Real.exp Real.sqrt p dWs us jNs n = some l →
      ∀ e ∈ l, 0 < e.price := by
  intro n
  induction n with
  | zero =>
    intro l hls e he
    rw [mertonPathUpTo, Option.some.injEq] at hls
    rw [← hls] at he
    rw [List.mem_singleton.mp he]
    exact hS0
  | succ m ih =>
    intro l hls e he
    rw [mertonPathUpTo] at hls
    rcases hprev : mertonPathUpTo fuel Real.exp Real.sqrt p dWs us jNs m with _ | l0
    · rw [hprev] at hls; cases hls
    · rw [hprev, Option.some_bind] at hls
      rcases hent : mertonEntry fuel Real.exp Real.sqrt p dWs us jNs (m + 1) with _ | e1
      · rw [hent] at hls; cases hls
      · rw [hent, Option.map_some', Option.some.injEq] at hls
        rw [← hls] at he
        rcases List.mem_append.mp he with h | h
        · exact ih l0 hprev e h
        · rw [List.mem_singleton.mp h]
          rw [mertonEntry] at hent
          rcases hS : mertonPrice fuel Real.exp Real.sqrt p dWs us jNs (m + 1) with _ | S
          · rw [hS] at hent; cases hent
          · rw [hS, Option.some_bind] at hent
            rcases hj : numJumpsAt fuel Real.exp p us m with _ | nJ
            · rw [hj] at hent; cases hent
            · rw [hj, Option.map_some', Option.some.injEq] at hent
              rw [← hent]
              exact mertonPrice_pos fuel p dWs us jNs hS0 (m + 1) S hS

/-- C9, amended: whenever the jump-diffusion simulation terminates, every
price recorded in every `PathPoint` of its path is strictly positive
(each step multiplies the positive `S0` by an exponential); the Heston
price path, by contrast, is not floored and can become non-positive. -/
theorem mertonPathPrice_positive (fuel : ℕ) (p : MertonParams ℝ)
    (dWs : ℕ → ℝ) (us : ℕ → ℕ → ℝ) (jNs : ℕ → ℕ → ℝ)
    (hS0 : 0 < p.S0) (pth jmp : List (MStep ℝ))
    (h : simulateJumpDiffusionPath fuel Real.exp Real.sqrt p dWs us jNs = some (pth, jmp)) :
    ∀ e ∈ pth, 0 < e.price := by
  rw [simulateJumpDiffusionPath] at h
  rcases hpath : mertonPathUpTo fuel Real.exp Real.sqrt p dWs us jNs p.numSteps with _ | l
  · rw [hpath] at h; cases h
  · rw [hpath, Option.map_some', Option.some.injEq, Prod.mk.injEq] at h
    rw [← h.1]
    exact mertonPathUpTo_price_pos fuel p dWs us jNs hS0 p.numSteps l hpath

/-- Witness for the amended C9 theorem: applied at the zero-step parameter
set, whose simulated path is the single initial point at price `100`. -/
theorem mertonPathPrice_positive_witness :
    0 < (⟨0, (100 : ℝ), 0, 0⟩ : MStep ℝ).price :=
  mertonPathPrice_positive 1 (mertonZeroStepParams ℝ) (fun _ => 0) (fun _ _ => 0)
    (fun _ _ => 0) (by norm_num [mertonZeroStepParams]) _ [] rfl
    (⟨0, (100 : ℝ), 0, 0⟩ : MStep ℝ) (List.mem_singleton.mpr rfl)

/-- Folding `min` over a list bounds the seed and every member from
below. -/
theorem foldl_min_le (xs : List K) : ∀ a : K,
    xs.foldl min a ≤ a ∧ ∀ x ∈ xs, xs.foldl min a ≤ x := by
  induction xs with
  | nil => exact fun a => ⟨le_refl a, by simp⟩
  | cons y ys ih =>
    intro a
    refine ⟨le_trans (ih (min a y)).1 (min_le_left a y), ?_⟩
    intro x hx
    rcases List.mem_cons.mp hx with rfl | hx
    · exact le_trans (ih (min a x)).1 (min_le_right a x)
    · exact (ih (min a y)).2 x hx

/-- Folding `max` over a list bounds the seed and every member from
above. -/
theorem le_foldl_max (xs : List K) : ∀ a : K,
    a ≤ xs.foldl max a ∧ ∀ x ∈ xs, x ≤ xs.foldl max a := by
  induction xs with
  | nil => exact fun a => ⟨le_refl a, by simp⟩
  | cons y ys ih =>
    intro a
    refine ⟨le_trans (le_max_left a y) (ih (max a y)).1, ?_⟩
    intro x hx
    rcases List.mem_cons.mp hx with rfl | hx
    · exact le_trans (le_max_right a x) (ih (max a x)).1
    · exact (ih (max a y)).2 x hx

/-- `Math.min(...prices)` is a lower bound of the batch. -/
theorem listMin_le (l : List K) : ∀ x ∈ l, listMin l ≤ x := by
  cases l with
  | nil => simp
  | cons a xs =>
    intro x hx
    rcases List.mem_cons.mp hx with rfl | hx
    · exact (foldl_min_le xs x).1
    · exact (foldl_min_le xs a).2 x hx

/-- `Math.max(...prices)` is an upper bound of the batch. -/
theorem le_listMax (l : List K) : ∀ x ∈ l, x ≤ listMax l := by
  cases l with
  | nil => simp
  | cons a xs =>
    intro x hx
    rcases List.mem_cons.mp hx with rfl | hx
    · exact (le_foldl_max xs x).1
    · exact (le_foldl_max xs a).2 x hx

/-- Indicator sums over the integers: a single integer `z` is hit by
exactly one index of `range N` when `0 ≤ z < N`, and by none otherwise. -/
theorem sum_indicator_int (z : ℤ) (N : ℕ) :
    (∑ i ∈ Finset.range N, if (i : ℤ) = z then (1 : ℕ) else 0)
      = if 0 ≤ z ∧ z < N then 1 else 0 := by
  induction N with
  | zero =>
    rw [Finset.range_zero, Finset.sum_empty, if_neg]
    omega
  | succ n ih =>
    rw [Finset.sum_range_succ, ih]
    split_ifs <;> omega

/-- The 20 histogram bins are disjoint and cover exactly `[m, m + N*w)`:
for positive width `w`, each point `x` falls in exactly one of the `N`
half-open bins `[m + i*w, m + i*w + w)` if `m ≤ x < m + N*w`, and in none
otherwise. -/
theorem binIndicator_sum [FloorRing K] (m w x : K) (hw : 0 < w) (N : ℕ) :
    (∑ i ∈ Finset.range N,
        if m + (i : K) * w ≤ x ∧ x < m + (i : K) * w + w then (1 : ℕ) else 0)
      = if m ≤ x ∧ x < m + (N : K) * w then 1 else 0 := by
  have hC : ∀ i : ℕ,
      (m + (i : K) * w ≤ x ∧ x < m + (i : K) * w + w) ↔ ((i : ℤ) = ⌊(x - m) / w⌋) := by
    intro i
    rw [eq_comm, Int.floor_eq_iff]
    push_cast
    rw [le_div_iff₀ hw, div_lt_iff₀ hw]
    constructor
    · rintro ⟨h1, h2⟩
      constructor <;> nlinarith
    · rintro ⟨h1, h2⟩
      constructor <;> nlinarith
  have hR : (m ≤ x ∧ x < m + (N : K) * w) ↔ (0 ≤ ⌊(x - m) / w⌋ ∧ ⌊(x - m) / w⌋ < N) := by
    rw [show (0 ≤ ⌊(x - m) / w⌋) = ((0 : ℤ) ≤ ⌊(x - m) / w⌋) from rfl, Int.le_floor,
      Int.floor_lt, le_div_iff₀ hw, div_lt_iff₀ hw]
    push_cast
    constructor
    · rintro ⟨h1, h2⟩
      constructor <;> nlinarith
    · rintro ⟨h1, h2⟩
      constructor <;> nlinarith
  calc (∑ i ∈ Finset.range N,
        if m + (i : K) * w ≤ x ∧ x < m + (i : K) * w + w then (1 : ℕ) else 0)
      = ∑ i ∈ Finset.range N, if (i : ℤ) = ⌊(x - m) / w⌋ then (1 : ℕ) else 0 :=
        Finset.sum_congr rfl fun i _ => if_congr (hC i) rfl rfl
    _ = if 0 ≤ ⌊(x - m) / w⌋ ∧ ⌊(x - m) / w⌋ < N then 1 else 0 :=
        sum_indicator_int _ N
    _ = if m ≤ x ∧ x < m + (N : K) * w then 1 else 0 := (if_congr hR rfl rfl).symm

/-- Summing a list built by mapping over `List.range` is a `Finset.range`
sum. -/
theorem list_range_map_sum (N : ℕ) (g : ℕ → ℕ) :
    ((List.range N).map g).sum = ∑ i ∈ Finset.range N, g i := by
  induction N with
  | zero => rfl
  | succ n ih =>
    rw [List.range_succ, List.map_append, List.sum_append, Finset.sum_range_succ, ih]
    simp

/-- Exchanging a `Finset.range` sum of per-bin counts into a per-element
sum of bin indicators. -/
theorem countP_sum_comm (l : List K) (N : ℕ) (p : ℕ → K → Bool) :
    (∑ i ∈ Finset.range N, l.countP (p i))
      = (l.map fun x => ∑ i ∈ Finset.range N, if p i x = true then (1 : ℕ) else 0).sum := by
  induction l with
  | nil => simp
  | cons a tl ih =>
    simp only [List.countP_cons, List.map_cons, List.sum_cons, Finset.sum_add_distrib, ih]
    ring

/-- A sum of indicators over a list is a `countP`. -/
theorem sum_map_indicator_eq_countP (l : List K) (P : K → Prop) [DecidablePred P] :
    (l.map fun x => if P x then (1 : ℕ) else 0).sum = l.countP fun x => decide (P x) := by
  induction l with
  | nil => rfl
  | cons a tl ih =>
    simp only [List.map_cons, List.sum_cons, List.countP_cons, ih, decide_eq_true_eq]
    ring

/-- Counting the elements below an upper bound `M` of a list and the
occurrences of `M` itself accounts for the whole list. -/
theorem countP_lt_add_count_eq_length (l : List K) (M : K) (hub : ∀ x ∈ l, x ≤ M) :
    (l.countP fun x => decide (x < M)) + l.count M = l.length := by
  induction l with
  | nil => rfl
  | cons a tl ih =>
    have ha := hub a (List.mem_cons_self a tl)
    have htl := ih fun x hx => hub x (List.mem_cons_of_mem a hx)
    simp only [List.countP_cons, List.count_cons, List.length_cons, decide_eq_true_eq,
      beq_iff_eq]
    rcases lt_or_eq_of_le ha with h | h
    · rw [if_pos h, if_neg h.ne]
      omega
    · rw [if_neg (h ▸ lt_irrefl a), if_pos h]
      omega

/-- The histogram identity behind C3: when the batch has distinct minimum
and maximum, the 20 bin counts sum to the batch size minus the number of
occurrences of the maximum, since the last bin's strict upper edge
excludes the maximum itself. -/
theorem distributionCountsSum_add_count_max [FloorRing K]
    (prices : List K) (n : ℕ) (hlt : listMin prices < listMax prices) :
    distributionCountsSum prices n + prices.count (listMax prices) = prices.length := by
  set m := listMin prices with hm
  set M := listMax prices with hM
  set w : K := (M - m) / 20 with hwdef
  have hw : 0 < w := div_pos (by linarith) (by norm_num)
  have hsum : distributionCountsSum prices n
      = ∑ i ∈ Finset.range 20,
          prices.countP fun x => decide (m + (i : K) * w ≤ x ∧ x < m + (i : K) * w + w) := by
    rw [distributionCountsSum, distribution]
    rw [List.map_map, list_range_map_sum]
    refine Finset.sum_congr rfl fun i _ => ?_
    simp only [Function.comp]
    rw [List.countP_eq_length_filter]
  rw [hsum, countP_sum_comm]
  have hpoint : ∀ x ∈ prices,
      (∑ i ∈ Finset.range 20,
        if (decide (m + (i : K) * w ≤ x ∧ x < m + (i : K) * w + w)) = true
        then (1 : ℕ) else 0)
      = if x < M then (1 : ℕ) else 0 := by
    intro x hx
    have h20 : m + (20 : K) * w = M := by
      rw [hwdef]
      field_simp
    calc (∑ i ∈ Finset.range 20,
          if (decide (m + (i : K) * w ≤ x ∧ x < m + (i : K) * w + w)) = true
          then (1 : ℕ) else 0)
        = ∑ i ∈ Finset.range 20,
            if m + (i : K) * w ≤ x ∧ x < m + (i : K) * w + w then (1 : ℕ) else 0 :=
          Finset.sum_congr rfl fun i _ => by simp only [decide_eq_true_eq]
      _ = if m ≤ x ∧ x < m + (20 : K) * w then 1 else 0 := by
          rw [binIndicator_sum m w x hw 20]
          norm_num
      _ = if x < M then 1 else 0 := by
          rw [h20]
          exact if_congr (and_iff_right (listMin_le prices x hx)) rfl rfl
  rw [List.map_congr_left hpoint, sum_map_indicator_eq_countP]
  exact countP_lt_add_count_eq_length prices M (le_listMax prices)

/-- C3, counterexample: for the two-element batch `[0, 20]` (minimum `0`,
maximum `20`, so the bin width `1` is positive), the 20 bin counts sum to
`1`, not to the batch size `2`: the maximum `20` satisfies no bin's strict
upper edge, the last bin being `[19, 20)`. -/
theorem mertonHistogramSum_counterexample :
    listMin ([0, 20] : List ℚ) < listMax [0, 20] ∧
    ([0, 20] : List ℚ).length = 2 ∧
    distributionCountsSum ([0, 20] : List ℚ) 2 = 1 ∧ (1 : ℕ) ≠ 2 := by
  have hmin : listMin ([0, 20] : List ℚ) = 0 := by
    simp [listMin, min_def]
  have hmax : listMax ([0, 20] : List ℚ) = 20 := by
    simp [listMax, max_def]
  have h := distributionCountsSum_add_count_max ([0, 20] : List ℚ) 2
    (by rw [hmin, hmax]; norm_num)
  have hcount : ([0, 20] : List ℚ).count (listMax [0, 20]) = 1 := by
    rw [hmax]
    simp [List.count_cons]
  rw [hcount] at h
  refine ⟨by rw [hmin, hmax]; norm_num, rfl, ?_, by norm_num⟩
  simpa using h

/-- C3, amended: for every batch with distinct minimum and maximum, the 20
bin counts sum to the batch size minus the number of batch elements equal
to the maximum (each bin's upper edge is strict, so the maximum itself is
never counted); equivalently, the counts sum to `N` only after adding the
multiplicity of the maximum. -/
theorem mertonHistogramSum_amended [FloorRing K] (prices : List K) (n : ℕ)
    (hlt : listMin prices < listMax prices) :
    distributionCountsSum prices n + prices.count (listMax prices) = prices.length :=
  distributionCountsSum_add_count_max prices n hlt

/-- Witness for the amended C3 theorem, applied to the batch `[0, 20]`
over `ℚ`. -/
theorem mertonHistogramSum_amended_witness :
    distributionCountsSum ([0, 20] : List ℚ) 2 + ([0, 20] : List ℚ).count (listMax [0, 20])
      = ([0, 20] : List ℚ).length :=
  mertonHistogramSum_amended ([0, 20] : List ℚ) 2 (by simp [listMin, listMax, min_def, max_def])
